import Mathlib

/-!
# Verification of the golden-file comparison library

A shallow embedding of the `golden` Go package: path resolution of a logical
relative path against an ordered list of GOPATH roots (`getFullPathForRead`,
`getFullPathForWrite` in `build.go`), and the compare/update protocol
(`Compare` in `golden.go`).

The filesystem is modelled as an explicit value: a list of existing files
(path with contents) plus a list of existing directories.  `os.Stat` succeeds
on a path exactly when a file or a directory exists there.  The unified-diff
formatter (`difflib`) is an external collaborator and is passed in as an
opaque function of the structure the code hands it.  Fatal `log.Fatalf` exits
are modelled as `Except.error`.
-/

deriving instance DecidableEq for Except

namespace Golden

/-- A filesystem snapshot: existing regular files (path paired with contents)
and existing directories.  Mirrors what `os.Stat`, `ioutil.ReadFile` and
`ioutil.WriteFile` can observe or change in the Go code. -/
structure FS where
  files : List (String × String)
  dirs : List String
deriving DecidableEq, Repr

/-- `os.Stat(p) == nil`: some entry (file or directory) exists at `p`. -/
def FS.statOk (fs : FS) (p : String) : Bool :=
  fs.files.any (fun kv => kv.1 = p) || fs.dirs.contains p

/-- `ioutil.ReadFile`: the contents of the file at `p`, if a file is there. -/
def FS.readFile (fs : FS) (p : String) : Option String :=
  (fs.files.find? (fun kv => kv.1 = p)).map Prod.snd

/-- Replace the contents stored under key `p`, or append the binding. -/
def setKey : List (String × String) → String → String → List (String × String)
  | [], p, c => [(p, c)]
  | kv :: rest, p, c => if kv.1 = p then (p, c) :: rest else kv :: setKey rest p c

/-- Split a character sequence at every occurrence of `sep` (the separator
characters are dropped; `n+1` pieces for `n` separators, like Go's
`strings.Split` and `String.splitOn`). -/
def splitChars (sep : Char) : List Char → List (List Char)
  | [] => [[]]
  | c :: cs =>
    match splitChars sep cs with
    | [] => [[]]
    | r :: rs => if c = sep then [] :: r :: rs else (c :: r) :: rs

/-- Rejoin path components with `/` separators. -/
def joinComponents : List (List Char) → List Char
  | [] => []
  | [c] => c
  | c :: cs => c ++ '/' :: joinComponents cs

/-- Go's `filepath.Dir` for slash-separated paths: drop the last component.
(The embedding covers cleaned paths, which is all the code ever builds.) -/
def dirOf (s : String) : String :=
  match (splitChars '/' s.data).dropLast with
  | [] => "."
  | parts => ⟨joinComponents parts⟩

/-- `ioutil.WriteFile(p, c, 0660)`: create or truncate the file at `p`.
Succeeds when the parent directory exists. -/
def FS.writeFile (fs : FS) (p c : String) : Option FS :=
  if fs.dirs.contains (dirOf p) then
    some { fs with files := setKey fs.files p c }
  else none

/-- `path.Join(root, "src", relPath)` for cleaned components. -/
def joinPath (root relPath : String) : String := root ++ "/src/" ++ relPath

/-- The structured failures of the package; in Go these are the
`fmt.Errorf` messages of `build.go` plus fatal I/O failures. -/
inductive GoldenError where
  | gopathEmpty : GoldenError
  | notFound (relPath : String) : GoldenError
  | multipleFiles (relPath : String) (paths : List String) : GoldenError
  | multipleSuitableDirs (paths : List String) : GoldenError
  | noSuchDirs (dirs : List String) : GoldenError
  | ioError : GoldenError
deriving DecidableEq, Repr

/-- Lexicographic comparison of character sequences by code point; on the
ASCII paths of this package it agrees with Go's bytewise string order. -/
def leChars : List Char → List Char → Bool
  | [], _ => true
  | _ :: _, [] => false
  | a :: as, b :: bs =>
    if a.toNat < b.toNat then true
    else if b.toNat < a.toNat then false
    else leChars as bs

/-- Go's `s <= t` on strings, bytewise/lexicographic. -/
def leStr (a b : String) : Bool := leChars a.data b.data

/-- Insert into a sorted list, keeping it sorted (ascending `leStr`). -/
def insertSorted (x : String) : List String → List String
  | [] => [x]
  | y :: ys => if leStr x y then x :: y :: ys else y :: insertSorted x ys

/-- `sortedKeys`: the keys of a `map[string]bool`, sorted ascending
(`sort.Strings`).  The map is represented as its duplicate-free key list. -/
def sortedKeys (m : List String) : List String :=
  m.foldr insertSorted []

/-- The loop of `getFullPathForRead`: first root whose candidate stats OK. -/
def findRead (fs : FS) (relPath : String) : List String → Option String
  | [] => none
  | p :: ps =>
    let fullPath := joinPath p relPath
    if fs.statOk fullPath then some fullPath else findRead fs relPath ps

/-- `getFullPathForRead` of `build.go`: fail on an empty root list, else
return the first existing candidate in root order, else a not-found error. -/
def getFullPathForRead (fs : FS) (goPaths : List String) (relPath : String) :
    Except GoldenError String :=
  match goPaths with
  | [] => .error .gopathEmpty
  | _ =>
    match findRead fs relPath goPaths with
    | some fullPath => .ok fullPath
    | none => .error (.notFound relPath)

/-- Insert a key into a `map[string]bool` represented as its key list
(no duplicates; insertion order retained, though only the set matters). -/
def insertKeySet (l : List String) (k : String) : List String :=
  if l.contains k then l else l ++ [k]

/-- The classification loop of `getFullPathForWrite`, abstracted over which
value is recorded (`f p`) and the stat test guarding it (`cond p`). -/
def collectSet (f : String → String) (cond : String → Bool)
    (goPaths : List String) : List String :=
  goPaths.foldl (fun acc p => if cond p then insertKeySet acc (f p) else acc) []

/-- `existingFiles`: candidates `path.Join(p, "src", relPath)` that stat OK. -/
def existingFilesOf (fs : FS) (goPaths : List String) (relPath : String) :
    List String :=
  collectSet (fun p => joinPath p relPath)
    (fun p => fs.statOk (joinPath p relPath)) goPaths

/-- `possibleDirectories`: every parent directory considered. -/
def possibleDirectoriesOf (goPaths : List String) (relPath : String) :
    List String :=
  collectSet (fun p => dirOf (joinPath p relPath)) (fun _ => true) goPaths

/-- `filesWithExistingDir`: candidates whose parent directory stats OK. -/
def filesWithExistingDirOf (fs : FS) (goPaths : List String) (relPath : String) :
    List String :=
  collectSet (fun p => joinPath p relPath)
    (fun p => fs.statOk (dirOf (joinPath p relPath))) goPaths

/-- The general (two or more roots) case of `getFullPathForWrite`. -/
def getFullPathForWriteMulti (fs : FS) (goPaths : List String)
    (relPath : String) : Except GoldenError String :=
  let existingFiles := existingFilesOf fs goPaths relPath
  let filesWithExistingDir := filesWithExistingDirOf fs goPaths relPath
  let possibleDirectories := possibleDirectoriesOf goPaths relPath
  if existingFiles.length > 1 then
    .error (.multipleFiles relPath (sortedKeys existingFiles))
  else
    match existingFiles with
    | [fullPath] => .ok fullPath
    | _ =>
      if filesWithExistingDir.length > 1 then
        .error (.multipleSuitableDirs (sortedKeys filesWithExistingDir))
      else
        match filesWithExistingDir with
        | [fullPath] => .ok fullPath
        | _ => .error (.noSuchDirs (sortedKeys possibleDirectories))

/-- `getFullPathForWrite` of `build.go`: empty root list fails; a single
root is returned unconditionally; otherwise the ambiguity-detecting
classification runs. -/
def getFullPathForWrite (fs : FS) (goPaths : List String) (relPath : String) :
    Except GoldenError String :=
  match goPaths with
  | [] => .error .gopathEmpty
  | [p] => .ok (joinPath p relPath)
  | p :: q :: rest => getFullPathForWriteMulti fs (p :: q :: rest) relPath

/-- The argument record the code builds for `difflib.UnifiedDiff`. -/
structure UnifiedDiff where
  A : List String
  FromFile : String
  B : List String
  ToFile : String
  Context : Nat
deriving DecidableEq, Repr

/-- `difflib.SplitLines`: split after each newline, then append a final
newline to the last piece. -/
def splitLines (s : String) : List String :=
  (splitChars '\n' s.data).map (fun line => ⟨line ++ ['\n']⟩)

/-- `strings.TrimSuffix`: cut a trailing occurrence of `suf`, if present. -/
def trimSuffix (s suf : String) : String :=
  if suf.data.isSuffixOf s.data then
    ⟨s.data.take (s.data.length - suf.data.length)⟩
  else s

/-- `formatUpdateCommand` of `build.go`. -/
def formatUpdateCommand : String := "go test -update_golden"

/-- The non-match return value of `Compare`: the instruction line (with the
update command rendered by `%q`) followed by the unified diff string. -/
def diffMessage (diffstr : String) : String :=
  "Actual data differs from golden data; run \"" ++ formatUpdateCommand ++
    "\" to update\n" ++ diffstr

/-- `Compare` of `golden.go`.  `diffFn` is the external `difflib`
collaborator (`GetUnifiedDiffString`); `updateGolden` is the process-wide
toggle read by `shouldUpdateGolden`; `goPaths` is the parsed GOPATH root
list.  A fatal `log.Fatalf` exit is an `Except.error`; a normal return
carries the (possibly updated) filesystem and the outcome string. -/
def Compare (diffFn : UnifiedDiff → String) (updateGolden : Bool)
    (goPaths : List String) (fs : FS) (actual goldenFile : String) :
    Except GoldenError (FS × String) :=
  if updateGolden then
    match getFullPathForWrite fs goPaths goldenFile with
    | .error e => .error e
    | .ok fullPath =>
      match fs.writeFile fullPath actual with
      | none => .error .ioError
      | some fs2 => .ok (fs2, "")
  else
    match getFullPathForRead fs goPaths goldenFile with
    | .error e => .error e
    | .ok fullPath =>
      match fs.readFile fullPath with
      | none => .error .ioError
      | some expected =>
        if expected = actual then .ok (fs, "")
        else
          .ok (fs, diffMessage (diffFn
            ⟨splitLines expected, goldenFile, splitLines actual,
              trimSuffix goldenFile ".golden" ++ ".actual", 3⟩))

/-- Changing only the contents stored for path `p` (used to state that write
mode never depends on the target's prior contents). -/
def FS.setContent (fs : FS) (p c : String) : FS :=
  { fs with files := fs.files.map (fun kv => if kv.1 = p then (kv.1, c) else kv) }

/-! ## Lemmas about the set and sorting helpers -/

theorem mem_insertKeySet {l : List String} {k x : String} :
    x ∈ insertKeySet l k ↔ x ∈ l ∨ x = k := by
  simp only [insertKeySet]
  split
  · rename_i h
    have hk : k ∈ l := by simpa using h
    constructor
    · exact Or.inl
    · rintro (hx | rfl)
      · exact hx
      · exact hk
  · simp [List.mem_append]

theorem nodup_insertKeySet {l : List String} {k : String} (h : l.Nodup) :
    (insertKeySet l k).Nodup := by
  simp only [insertKeySet]
  split
  · exact h
  · rename_i hc
    have hk : k ∉ l := by simpa using hc
    simp [List.nodup_append, h, hk]

theorem mem_collect_aux (f : String → String) (cond : String → Bool)
    (x : String) (gp : List String) :
    ∀ acc : List String,
      (x ∈ gp.foldl (fun acc p => if cond p then insertKeySet acc (f p) else acc) acc ↔
        x ∈ acc ∨ ∃ p ∈ gp, cond p = true ∧ x = f p) := by
  induction gp with
  | nil => intro acc; simp
  | cons g gp ih =>
    intro acc
    simp only [List.foldl_cons]
    by_cases h : cond g
    · rw [if_pos h, ih, mem_insertKeySet]
      simp only [List.mem_cons]
      constructor
      · rintro ((hx | rfl) | ⟨p, hp, hc, rfl⟩)
        · exact Or.inl hx
        · exact Or.inr ⟨g, Or.inl rfl, h, rfl⟩
        · exact Or.inr ⟨p, Or.inr hp, hc, rfl⟩
      · rintro (hx | ⟨p, (rfl | hp), hc, rfl⟩)
        · exact Or.inl (Or.inl hx)
        · exact Or.inl (Or.inr rfl)
        · exact Or.inr ⟨p, hp, hc, rfl⟩
    · rw [if_neg h, ih]
      simp only [List.mem_cons]
      constructor
      · rintro (hx | ⟨p, hp, hc, rfl⟩)
        · exact Or.inl hx
        · exact Or.inr ⟨p, Or.inr hp, hc, rfl⟩
      · rintro (hx | ⟨p, (rfl | hp), hc, rfl⟩)
        · exact Or.inl hx
        · exact absurd hc (by simpa using h)
        · exact Or.inr ⟨p, hp, hc, rfl⟩

theorem mem_collectSet {f : String → String} {cond : String → Bool}
    {gp : List String} {x : String} :
    x ∈ collectSet f cond gp ↔ ∃ p ∈ gp, cond p = true ∧ x = f p := by
  simpa using mem_collect_aux f cond x gp []

theorem nodup_collect_aux (f : String → String) (cond : String → Bool)
    (gp : List String) :
    ∀ acc : List String, acc.Nodup →
      (gp.foldl (fun acc p => if cond p then insertKeySet acc (f p) else acc) acc).Nodup := by
  induction gp with
  | nil => intro acc h; simpa using h
  | cons g gp ih =>
    intro acc h
    simp only [List.foldl_cons]
    by_cases hc : cond g
    · rw [if_pos hc]; exact ih _ (nodup_insertKeySet h)
    · rw [if_neg hc]; exact ih _ h

theorem nodup_collectSet {f : String → String} {cond : String → Bool}
    {gp : List String} : (collectSet f cond gp).Nodup :=
  nodup_collect_aux f cond gp [] List.nodup_nil

theorem leChars_total : ∀ a b : List Char, leChars a b = true ∨ leChars b a = true
  | [], _ => Or.inl rfl
  | _ :: _, [] => Or.inr rfl
  | a :: as, b :: bs => by
    simp only [leChars]
    rcases Nat.lt_trichotomy a.toNat b.toNat with h | h | h
    · left; simp [h]
    · have h' : ¬ b.toNat < a.toNat := by omega
      have h'' : ¬ a.toNat < b.toNat := by omega
      simpa [h', h''] using leChars_total as bs
    · right; simp [h]

theorem leChars_trans :
    ∀ a b c : List Char, leChars a b = true → leChars b c = true → leChars a c = true
  | [], _, _ => fun _ _ => rfl
  | _ :: _, [], _ => by intro h; exact absurd h (by simp [leChars])
  | _ :: _, _ :: _, [] => by intro _ h; exact absurd h (by simp [leChars])
  | a :: as, b :: bs, c :: cs => by
    simp only [leChars]
    intro h1 h2
    by_cases hab : a.toNat < b.toNat
    · by_cases hbc : b.toNat < c.toNat
      · have hac : a.toNat < c.toNat := by omega
        simp [hac]
      · have hcb : ¬ c.toNat < b.toNat := by
          intro hcb
          simp [hbc, hcb] at h2
        have hac : a.toNat < c.toNat := by omega
        simp [hac]
    · have hba : ¬ b.toNat < a.toNat := by
        intro hba
        simp [hab, hba] at h1
      by_cases hbc : b.toNat < c.toNat
      · have hac : a.toNat < c.toNat := by omega
        simp [hac]
      · have hcb : ¬ c.toNat < b.toNat := by
          intro hcb
          simp [hbc, hcb] at h2
        have hac : ¬ a.toNat < c.toNat := by omega
        have hca : ¬ c.toNat < a.toNat := by omega
        have r1 : leChars as bs = true := by simpa [hab, hba] using h1
        have r2 : leChars bs cs = true := by simpa [hbc, hcb] using h2
        simp [hac, hca, leChars_trans as bs cs r1 r2]

theorem leStr_total (a b : String) : leStr a b = true ∨ leStr b a = true :=
  leChars_total a.data b.data

theorem leStr_trans {a b c : String} (h1 : leStr a b = true) (h2 : leStr b c = true) :
    leStr a c = true :=
  leChars_trans a.data b.data c.data h1 h2

theorem mem_insertSorted {x y : String} {l : List String} :
    y ∈ insertSorted x l ↔ y = x ∨ y ∈ l := by
  induction l with
  | nil => simp [insertSorted]
  | cons z zs ih =>
    simp only [insertSorted]
    split
    · simp
    · simp only [List.mem_cons, ih]
      tauto

theorem pairwise_insertSorted {x : String} {l : List String}
    (h : l.Pairwise (fun a b => leStr a b = true)) :
    (insertSorted x l).Pairwise (fun a b => leStr a b = true) := by
  induction l with
  | nil => simp [insertSorted]
  | cons y ys ih =>
    simp only [insertSorted]
    rcases List.pairwise_cons.1 h with ⟨hy, hys⟩
    split
    · rename_i hxy
      refine List.pairwise_cons.2 ⟨?_, h⟩
      intro z hz
      rcases List.mem_cons.1 hz with rfl | hz
      · exact hxy
      · exact leStr_trans hxy (hy z hz)
    · rename_i hxy
      have hyx : leStr y x = true := by
        rcases leStr_total x y with h' | h'
        · exact absurd h' hxy
        · exact h'
      refine List.pairwise_cons.2 ⟨?_, ih hys⟩
      intro z hz
      rcases mem_insertSorted.1 hz with rfl | hz
      · exact hyx
      · exact hy z hz

theorem sortedKeys_cons (y : String) (ys : List String) :
    sortedKeys (y :: ys) = insertSorted y (sortedKeys ys) := rfl

theorem mem_sortedKeys {l : List String} {x : String} :
    x ∈ sortedKeys l ↔ x ∈ l := by
  induction l with
  | nil => simp [sortedKeys]
  | cons y ys ih =>
    rw [sortedKeys_cons, mem_insertSorted, ih, List.mem_cons]

theorem pairwise_sortedKeys (l : List String) :
    (sortedKeys l).Pairwise (fun a b => leStr a b = true) := by
  induction l with
  | nil => simp [sortedKeys]
  | cons y ys ih =>
    rw [sortedKeys_cons]
    exact pairwise_insertSorted ih

/-! ## Lemmas about the read loop, the key-value store and the filesystem -/

theorem findRead_eq (fs : FS) (rel : String) :
    ∀ gp : List String,
      findRead fs rel gp =
        (gp.find? (fun p => fs.statOk (joinPath p rel))).map
          (fun p => joinPath p rel) := by
  intro gp
  induction gp with
  | nil => rfl
  | cons p ps ih =>
    simp only [findRead, List.find?]
    by_cases h : fs.statOk (joinPath p rel)
    · simp [h]
    · simp [h, ih]

theorem find?_setKey_self (l : List (String × String)) (p c : String) :
    (setKey l p c).find? (fun kv => kv.1 = p) = some (p, c) := by
  induction l with
  | nil => simp [setKey]
  | cons kv rest ih =>
    simp only [setKey]
    split
    · simp
    · rename_i h
      rw [List.find?_cons_of_neg _ (by simpa using h), ih]

theorem find?_setKey_ne (l : List (String × String)) (p c q : String)
    (h : q ≠ p) :
    (setKey l p c).find? (fun kv => kv.1 = q) = l.find? (fun kv => kv.1 = q) := by
  have hpq : ¬ p = q := fun h' => h h'.symm
  induction l with
  | nil => simp [setKey, hpq]
  | cons kv rest ih =>
    simp only [setKey]
    split
    · rename_i hkv
      rw [List.find?_cons_of_neg _ (by simpa using hpq),
        List.find?_cons_of_neg _ (by simp [hkv, hpq])]
    · by_cases hq : kv.1 = q
      · rw [List.find?_cons_of_pos _ (by simpa using hq),
          List.find?_cons_of_pos _ (by simpa using hq)]
      · rw [List.find?_cons_of_neg _ (by simpa using hq),
          List.find?_cons_of_neg _ (by simpa using hq), ih]

theorem any_setKey (l : List (String × String)) (p c q : String) :
    (setKey l p c).any (fun kv => kv.1 = q) =
      (decide (p = q) || l.any (fun kv => kv.1 = q)) := by
  induction l with
  | nil => simp [setKey]
  | cons kv rest ih =>
    simp only [setKey]
    split
    · rename_i hkv
      simp only [List.any_cons, hkv]
      cases hd : decide (p = q) <;> simp_all
    · simp only [List.any_cons, ih]
      cases hd : decide (p = q) <;> cases hk : decide (kv.1 = q) <;> simp_all

theorem writeFile_some {fs : FS} {p c : String} {fs2 : FS}
    (h : fs.writeFile p c = some fs2) :
    fs2.files = setKey fs.files p c ∧ fs2.dirs = fs.dirs ∧
      fs.dirs.contains (dirOf p) = true := by
  simp only [FS.writeFile] at h
  split at h
  · rename_i hd
    have := Option.some.inj h
    subst this
    exact ⟨rfl, rfl, hd⟩
  · exact absurd h (by simp)

theorem statOk_afterWrite {fs fs2 : FS} {p c : String}
    (h : fs.writeFile p c = some fs2) (q : String) :
    fs2.statOk q = (decide (p = q) || fs.statOk q) := by
  obtain ⟨hf, hd, _⟩ := writeFile_some h
  simp [FS.statOk, hf, hd, any_setKey, Bool.or_assoc]

theorem readFile_afterWrite_self {fs fs2 : FS} {p c : String}
    (h : fs.writeFile p c = some fs2) :
    fs2.readFile p = some c := by
  obtain ⟨hf, _, _⟩ := writeFile_some h
  simp [FS.readFile, hf, find?_setKey_self]

theorem readFile_afterWrite_ne {fs fs2 : FS} {p c q : String}
    (h : fs.writeFile p c = some fs2) (hq : q ≠ p) :
    fs2.readFile q = fs.readFile q := by
  obtain ⟨hf, _, _⟩ := writeFile_some h
  simp [FS.readFile, hf, find?_setKey_ne _ _ _ _ hq]

theorem statOk_setContent (fs : FS) (p c q : String) :
    (fs.setContent p c).statOk q = fs.statOk q := by
  simp only [FS.setContent, FS.statOk, List.any_map]
  have hfun :
      ((fun kv : String × String => decide (kv.1 = q)) ∘
        fun kv : String × String => if kv.1 = p then (kv.1, c) else kv) =
      (fun kv : String × String => decide (kv.1 = q)) := by
    funext kv
    by_cases hk : kv.1 = p <;> simp [hk, Function.comp]
  rw [hfun]

/-! ## Lemmas about path resolution -/

theorem mem_existingFilesOf {fs : FS} {gp : List String} {rel x : String} :
    x ∈ existingFilesOf fs gp rel ↔
      ∃ p ∈ gp, fs.statOk (joinPath p rel) = true ∧ x = joinPath p rel := by
  unfold existingFilesOf
  exact mem_collectSet

theorem mem_filesWithExistingDirOf {fs : FS} {gp : List String} {rel x : String} :
    x ∈ filesWithExistingDirOf fs gp rel ↔
      ∃ p ∈ gp, fs.statOk (dirOf (joinPath p rel)) = true ∧ x = joinPath p rel := by
  unfold filesWithExistingDirOf
  exact mem_collectSet

theorem mem_possibleDirectoriesOf {gp : List String} {rel x : String} :
    x ∈ possibleDirectoriesOf gp rel ↔
      ∃ p ∈ gp, x = dirOf (joinPath p rel) := by
  unfold possibleDirectoriesOf
  rw [mem_collectSet]
  simp

theorem getFullPathForWriteMulti_ok {fs : FS} {gp : List String} {rel fp : String}
    (h : getFullPathForWriteMulti fs gp rel = .ok fp) :
    existingFilesOf fs gp rel = [fp] ∨
      (existingFilesOf fs gp rel = [] ∧
        filesWithExistingDirOf fs gp rel = [fp]) := by
  simp only [getFullPathForWriteMulti] at h
  by_cases h1 : (existingFilesOf fs gp rel).length > 1
  · rw [if_pos h1] at h
    exact Except.noConfusion h
  · rw [if_neg h1] at h
    cases hef : existingFilesOf fs gp rel with
    | cons x xs =>
      cases xs with
      | nil =>
        rw [hef] at h
        simp only [] at h
        left
        rw [Except.ok.inj h]
      | cons y ys =>
        exfalso
        apply h1
        rw [hef]
        simp
    | nil =>
      rw [hef] at h
      simp only [] at h
      by_cases h2 : (filesWithExistingDirOf fs gp rel).length > 1
      · rw [if_pos h2] at h
        exact Except.noConfusion h
      · rw [if_neg h2] at h
        cases hfw : filesWithExistingDirOf fs gp rel with
        | cons x xs =>
          cases xs with
          | nil =>
            rw [hfw] at h
            simp only [] at h
            right
            rw [Except.ok.inj h]
            exact ⟨rfl, rfl⟩
          | cons y ys =>
            exfalso
            apply h2
            rw [hfw]
            simp
        | nil =>
          rw [hfw] at h
          exact Except.noConfusion h

theorem getFullPathForWrite_ok {fs : FS} {gp : List String} {rel fp : String}
    (h : getFullPathForWrite fs gp rel = .ok fp) :
    (∃ p ∈ gp, fp = joinPath p rel) ∧
      (∀ q ∈ gp, fs.statOk (joinPath q rel) = true → joinPath q rel = fp) := by
  cases gp with
  | nil => exact Except.noConfusion h
  | cons g gs =>
    cases gs with
    | nil =>
      have hfp : fp = joinPath g rel := (Except.ok.inj h).symm
      constructor
      · exact ⟨g, by simp, hfp⟩
      · intro q hq _
        have hqg : q = g := by simpa using hq
        rw [hqg, hfp]
    | cons g2 gs2 =>
      rcases getFullPathForWriteMulti_ok h with hef | ⟨hef, hfw⟩
      · constructor
        · have hfpm : fp ∈ existingFilesOf fs (g :: g2 :: gs2) rel := by
            rw [hef]; simp
          rcases mem_existingFilesOf.1 hfpm with ⟨p, hp, _, hfp⟩
          exact ⟨p, hp, hfp⟩
        · intro q hq hstat
          have hqm : joinPath q rel ∈ existingFilesOf fs (g :: g2 :: gs2) rel :=
            mem_existingFilesOf.2 ⟨q, hq, hstat, rfl⟩
          rw [hef] at hqm
          simpa using hqm
      · constructor
        · have hfpm : fp ∈ filesWithExistingDirOf fs (g :: g2 :: gs2) rel := by
            rw [hfw]; simp
          rcases mem_filesWithExistingDirOf.1 hfpm with ⟨p, hp, _, hfp⟩
          exact ⟨p, hp, hfp⟩
        · intro q hq hstat
          have hqm : joinPath q rel ∈ existingFilesOf fs (g :: g2 :: gs2) rel :=
            mem_existingFilesOf.2 ⟨q, hq, hstat, rfl⟩
          rw [hef] at hqm
          exact absurd hqm (List.not_mem_nil _)

theorem getFullPathForWrite_statOk_congr {fs1 fs2 : FS}
    (h : ∀ q, fs1.statOk q = fs2.statOk q) (gp : List String) (rel : String) :
    getFullPathForWrite fs1 gp rel = getFullPathForWrite fs2 gp rel := by
  have he : existingFilesOf fs1 gp rel = existingFilesOf fs2 gp rel := by
    unfold existingFilesOf collectSet
    congr 1
    funext acc p
    simp only [h]
  have hw : filesWithExistingDirOf fs1 gp rel = filesWithExistingDirOf fs2 gp rel := by
    unfold filesWithExistingDirOf collectSet
    congr 1
    funext acc p
    simp only [h]
  cases gp with
  | nil => rfl
  | cons g gs =>
    cases gs with
    | nil => rfl
    | cons g2 gs2 =>
      simp only [getFullPathForWrite, getFullPathForWriteMulti, he, hw]

theorem getFullPathForRead_after_write {fs fs2 : FS} {gp : List String}
    {rel fp c : String}
    (hr : getFullPathForWrite fs gp rel = .ok fp)
    (hw : fs.writeFile fp c = some fs2) :
    getFullPathForRead fs2 gp rel = .ok fp := by
  obtain ⟨⟨p0, hp0, hfp⟩, huniq⟩ := getFullPathForWrite_ok hr
  have hstat : ∀ q, fs2.statOk q = (decide (fp = q) || fs.statOk q) :=
    statOk_afterWrite hw
  have hsome : (gp.find? (fun q => fs2.statOk (joinPath q rel))).isSome := by
    rw [List.find?_isSome]
    refine ⟨p0, hp0, ?_⟩
    rw [hstat, ← hfp]
    simp
  obtain ⟨p, hfind⟩ := Option.isSome_iff_exists.1 hsome
  have hpmem : p ∈ gp := List.mem_of_find?_eq_some hfind
  have hptrue := List.find?_some hfind
  have heq : joinPath p rel = fp := by
    rw [hstat, Bool.or_eq_true] at hptrue
    rcases hptrue with h' | h'
    · exact (of_decide_eq_true h').symm
    · exact huniq p hpmem h'
  cases gp with
  | nil => exact absurd hp0 (List.not_mem_nil _)
  | cons g gs =>
    simp only [getFullPathForRead]
    rw [findRead_eq, hfind]
    simp [heq]

/-! ## Claim theorems -/

/-- C6: with a root list of size exactly one, write resolution returns
root+path unconditionally and never fails; the result is independent of the
filesystem, so no existence check can influence it. -/
theorem write_single_root_unconditional (fs fs' : FS) (r rel : String) :
    getFullPathForWrite fs [r] rel = .ok (joinPath r rel) ∧
      getFullPathForWrite fs [r] rel = getFullPathForWrite fs' [r] rel :=
  ⟨rfl, rfl⟩

/-- C7: with an empty root list, both read and write resolution fail with the
empty-GOPATH configuration error and return no path. -/
theorem empty_roots_config_error (fs : FS) (rel : String) :
    getFullPathForRead fs [] rel = .error .gopathEmpty ∧
      getFullPathForWrite fs [] rel = .error .gopathEmpty :=
  ⟨rfl, rfl⟩

/-- C8: with a non-empty root list and no existing candidate, read resolution
fails with a not-found error naming the logical path. -/
theorem read_not_found (fs : FS) (gp : List String) (rel : String)
    (hne : gp ≠ [])
    (hnone : ∀ p ∈ gp, fs.statOk (joinPath p rel) = false) :
    getFullPathForRead fs gp rel = .error (.notFound rel) := by
  cases gp with
  | nil => exact absurd rfl hne
  | cons g gs =>
    simp only [getFullPathForRead]
    have hfind : (g :: gs).find? (fun p => fs.statOk (joinPath p rel)) = none := by
      rw [List.find?_eq_none]
      intro x hx
      simp [hnone x hx]
    rw [findRead_eq, hfind]
    rfl

/-- C8 witness: a concrete root list and filesystem with no candidate. -/
theorem read_not_found_witness :
    getFullPathForRead ⟨[], []⟩ ["r"] "a.txt" = .error (.notFound "a.txt") :=
  read_not_found ⟨[], []⟩ ["r"] "a.txt" (by decide) (by decide)

/-- C10: any successfully resolved path, for read or for write, is one of the
considered candidates `join(root, "src", logicalPath)` for a configured root. -/
theorem resolved_path_is_candidate (fs : FS) (gp : List String) (rel s : String)
    (h : getFullPathForRead fs gp rel = .ok s ∨
      getFullPathForWrite fs gp rel = .ok s) :
    ∃ p ∈ gp, s = joinPath p rel := by
  rcases h with h | h
  · cases gp with
    | nil => exact Except.noConfusion h
    | cons g gs =>
      simp only [getFullPathForRead] at h
      rw [findRead_eq] at h
      cases hfind : (g :: gs).find? (fun p => fs.statOk (joinPath p rel)) with
      | none =>
        rw [hfind] at h
        exact Except.noConfusion h
      | some p =>
        rw [hfind] at h
        simp only [Option.map_some'] at h
        exact ⟨p, List.mem_of_find?_eq_some hfind, (Except.ok.inj h).symm⟩
  · exact (getFullPathForWrite_ok h).1

/-- C10 witness: a concrete successful read resolution. -/
theorem resolved_path_is_candidate_witness :
    ∃ p ∈ (["r"] : List String), "r/src/a.txt" = joinPath p "a.txt" :=
  resolved_path_is_candidate ⟨[("r/src/a.txt", "x")], []⟩ ["r"] "a.txt"
    "r/src/a.txt" (Or.inl (by decide))

/-- C2: read resolution iterates the roots in list order and returns the first
existing candidate; when none exists it fails with not-found, and (given a
non-empty root list) it never fails with any other error, in particular never
with an ambiguity error. -/
theorem read_first_root_order_match (fs : FS) (gp : List String) (rel : String)
    (hne : gp ≠ []) :
    (∀ p, gp.find? (fun q => fs.statOk (joinPath q rel)) = some p →
        getFullPathForRead fs gp rel = .ok (joinPath p rel)) ∧
    (gp.find? (fun q => fs.statOk (joinPath q rel)) = none →
        getFullPathForRead fs gp rel = .error (.notFound rel)) ∧
    (∀ e, getFullPathForRead fs gp rel = .error e → e = .notFound rel) := by
  cases gp with
  | nil => exact absurd rfl hne
  | cons g gs =>
    refine ⟨?_, ?_, ?_⟩
    · intro p hfind
      simp only [getFullPathForRead]
      rw [findRead_eq, hfind]
      rfl
    · intro hfind
      simp only [getFullPathForRead]
      rw [findRead_eq, hfind]
      rfl
    · intro e he
      simp only [getFullPathForRead] at he
      rw [findRead_eq] at he
      cases hfind : (g :: gs).find? (fun q => fs.statOk (joinPath q rel)) with
      | none =>
        rw [hfind] at he
        simp only [Option.map_none'] at he
        exact (Except.error.inj he).symm
      | some p =>
        rw [hfind] at he
        exact Except.noConfusion he

/-- C2 witness: two roots both holding the file; the first root wins and no
ambiguity error is raised. -/
theorem read_first_root_order_match_witness :
    getFullPathForRead ⟨[("p1/src/d.txt", "x"), ("p2/src/d.txt", "y")], []⟩
      ["p1", "p2"] "d.txt" = .ok (joinPath "p1" "d.txt") :=
  (read_first_root_order_match
      ⟨[("p1/src/d.txt", "x"), ("p2/src/d.txt", "y")], []⟩
      ["p1", "p2"] "d.txt" (by decide)).1 "p1" (by decide)

/-- C1: with at least two roots, write resolution applies exactly the
five-rule decision order, first matching rule wins: more than one existing
candidate file fails listing all of them sorted lexicographically; exactly one
is returned; otherwise more than one candidate with an existing parent
directory fails listing those candidates sorted; exactly one such candidate is
returned; otherwise it fails listing every considered parent directory sorted.
The three categories contain exactly the candidates described, and the sorted
listings are sorted reorderings of their categories. -/
theorem write_decision_order (fs : FS) (gp : List String) (rel : String)
    (h2 : 2 ≤ gp.length) :
    (1 < (existingFilesOf fs gp rel).length →
      getFullPathForWrite fs gp rel =
        .error (.multipleFiles rel (sortedKeys (existingFilesOf fs gp rel)))) ∧
    (∀ fp, existingFilesOf fs gp rel = [fp] →
      getFullPathForWrite fs gp rel = .ok fp) ∧
    (existingFilesOf fs gp rel = [] →
      1 < (filesWithExistingDirOf fs gp rel).length →
      getFullPathForWrite fs gp rel =
        .error (.multipleSuitableDirs
          (sortedKeys (filesWithExistingDirOf fs gp rel)))) ∧
    (existingFilesOf fs gp rel = [] →
      ∀ fp, filesWithExistingDirOf fs gp rel = [fp] →
      getFullPathForWrite fs gp rel = .ok fp) ∧
    (existingFilesOf fs gp rel = [] →
      filesWithExistingDirOf fs gp rel = [] →
      getFullPathForWrite fs gp rel =
        .error (.noSuchDirs (sortedKeys (possibleDirectoriesOf gp rel)))) ∧
    (∀ x, x ∈ existingFilesOf fs gp rel ↔
      ∃ p ∈ gp, x = joinPath p rel ∧ fs.statOk x = true) ∧
    (∀ x, x ∈ filesWithExistingDirOf fs gp rel ↔
      ∃ p ∈ gp, x = joinPath p rel ∧ fs.statOk (dirOf x) = true) ∧
    (∀ x, x ∈ possibleDirectoriesOf gp rel ↔
      ∃ p ∈ gp, x = dirOf (joinPath p rel)) ∧
    (∀ l : List String,
      (sortedKeys l).Pairwise (fun a b => leStr a b = true)) ∧
    (∀ (l : List String) x, x ∈ sortedKeys l ↔ x ∈ l) := by
  obtain ⟨a, b, t, rfl⟩ : ∃ a b t, gp = a :: b :: t := by
    cases gp with
    | nil => simp at h2
    | cons a gs =>
      cases gs with
      | nil => simp at h2
      | cons b t => exact ⟨a, b, t, rfl⟩
  refine ⟨?_, ?_, ?_, ?_, ?_, ?_, ?_, ?_, ?_, ?_⟩
  · intro h1
    show getFullPathForWriteMulti fs (a :: b :: t) rel = _
    simp only [getFullPathForWriteMulti]
    rw [if_pos h1]
  · intro fp hef
    show getFullPathForWriteMulti fs (a :: b :: t) rel = _
    simp only [getFullPathForWriteMulti, hef]
    rfl
  · intro hef h1
    show getFullPathForWriteMulti fs (a :: b :: t) rel = _
    simp only [getFullPathForWriteMulti, hef]
    rw [if_pos h1]
    rfl
  · intro hef fp hfw
    show getFullPathForWriteMulti fs (a :: b :: t) rel = _
    simp only [getFullPathForWriteMulti, hef, hfw]
    rfl
  · intro hef hfw
    show getFullPathForWriteMulti fs (a :: b :: t) rel = _
    simp only [getFullPathForWriteMulti, hef, hfw]
    rfl
  · intro x
    rw [mem_existingFilesOf]
    constructor
    · rintro ⟨p, hp, hs, rfl⟩
      exact ⟨p, hp, rfl, hs⟩
    · rintro ⟨p, hp, rfl, hs⟩
      exact ⟨p, hp, hs, rfl⟩
  · intro x
    rw [mem_filesWithExistingDirOf]
    constructor
    · rintro ⟨p, hp, hs, rfl⟩
      exact ⟨p, hp, rfl, hs⟩
    · rintro ⟨p, hp, rfl, hs⟩
      exact ⟨p, hp, hs, rfl⟩
  · intro x
    exact mem_possibleDirectoriesOf
  · exact pairwise_sortedKeys
  · intro l x
    exact mem_sortedKeys

/-- C1 witness: two roots both holding the candidate file; the ambiguity
error lists both, sorted. -/
theorem write_decision_order_witness :
    getFullPathForWrite ⟨[("p2/src/t/f", "x"), ("p1/src/t/f", "y")], []⟩
      ["p1", "p2"] "t/f" =
    .error (.multipleFiles "t/f" ["p1/src/t/f", "p2/src/t/f"]) := by
  have h := (write_decision_order
    ⟨[("p2/src/t/f", "x"), ("p1/src/t/f", "y")], []⟩
    ["p1", "p2"] "t/f" (by decide)).1 (by decide)
  rw [h]
  decide

theorem Compare_true (diffFn : UnifiedDiff → String) (gp : List String)
    (fs : FS) (actual goldenFile : String) :
    Compare diffFn true gp fs actual goldenFile =
      match getFullPathForWrite fs gp goldenFile with
      | .error e => .error e
      | .ok fullPath =>
        match fs.writeFile fullPath actual with
        | none => .error .ioError
        | some fs2 => .ok (fs2, "") := rfl

theorem Compare_false (diffFn : UnifiedDiff → String) (gp : List String)
    (fs : FS) (actual goldenFile : String) :
    Compare diffFn false gp fs actual goldenFile =
      match getFullPathForRead fs gp goldenFile with
      | .error e => .error e
      | .ok fullPath =>
        match fs.readFile fullPath with
        | none => .error .ioError
        | some expected =>
          if expected = actual then .ok (fs, "")
          else
            .ok (fs, diffMessage (diffFn
              ⟨splitLines expected, goldenFile, splitLines actual,
                trimSuffix goldenFile ".golden" ++ ".actual", 3⟩)) := rfl

theorem diffMessage_ne_empty (d : String) : diffMessage d ≠ "" := by
  intro h
  have hlen := congrArg String.length h
  rw [diffMessage] at hlen
  simp only [String.length_append] at hlen
  have h1 : ("Actual data differs from golden data; run \"" : String).length = 43 :=
    rfl
  have h2 : formatUpdateCommand.length = 22 := rfl
  have h3 : ("\" to update\n" : String).length = 12 := rfl
  have h4 : ("" : String).length = 0 := rfl
  simp only [h1, h2, h3, h4] at hlen
  omega

/-- C3: in read mode, for a resolvable and readable golden path, Compare
returns the empty string iff the stored contents equal `actual` exactly;
otherwise it returns the update-command instruction line followed by the
unified diff the external formatter produces from the expected and actual
lines with 3 context lines, from-label the golden path and to-label the
golden path with a trailing ".golden" replaced by ".actual" (appended when
the suffix is absent). -/
theorem compare_read_mode (diffFn : UnifiedDiff → String) (gp : List String)
    (fs : FS) (actual goldenFile fullPath expected : String)
    (hres : getFullPathForRead fs gp goldenFile = .ok fullPath)
    (hread : fs.readFile fullPath = some expected) :
    (Compare diffFn false gp fs actual goldenFile = .ok (fs, "") ↔
      expected = actual) ∧
    (expected ≠ actual →
      Compare diffFn false gp fs actual goldenFile =
        .ok (fs, diffMessage (diffFn
          ⟨splitLines expected, goldenFile, splitLines actual,
            trimSuffix goldenFile ".golden" ++ ".actual", 3⟩))) ∧
    (∀ d, diffMessage d =
      "Actual data differs from golden data; run \"go test -update_golden\" to update\n"
        ++ d) ∧
    ((".golden" : String).data.isSuffixOf goldenFile.data = true →
      ∃ stem, goldenFile = stem ++ ".golden" ∧
        trimSuffix goldenFile ".golden" ++ ".actual" = stem ++ ".actual") ∧
    ((".golden" : String).data.isSuffixOf goldenFile.data = false →
      trimSuffix goldenFile ".golden" ++ ".actual" = goldenFile ++ ".actual") := by
  have hC : Compare diffFn false gp fs actual goldenFile =
      if expected = actual then .ok (fs, "")
      else .ok (fs, diffMessage (diffFn
        ⟨splitLines expected, goldenFile, splitLines actual,
          trimSuffix goldenFile ".golden" ++ ".actual", 3⟩)) := by
    rw [Compare_false, hres]
    simp only []
    rw [hread]
  refine ⟨?_, ?_, ?_, ?_, ?_⟩
  · rw [hC]
    by_cases he : expected = actual
    · simp [he]
    · rw [if_neg he]
      constructor
      · intro hok
        have hmsg := (Prod.mk.inj (Except.ok.inj hok)).2
        exact absurd hmsg (diffMessage_ne_empty _)
      · intro he'
        exact absurd he' he
  · intro hne
    rw [hC, if_neg hne]
  · intro d
    rfl
  · intro hsuf
    have hs : (".golden" : String).data <:+ goldenFile.data := by
      simpa using hsuf
    obtain ⟨pre, hpre⟩ := hs
    have htrim : trimSuffix goldenFile ".golden" = ⟨pre⟩ := by
      unfold trimSuffix
      rw [if_pos hsuf]
      have h7 : (".golden" : String).data.length = 7 := rfl
      have htake : goldenFile.data.take
          (goldenFile.data.length - (".golden" : String).data.length) = pre := by
        rw [← hpre, List.length_append, h7, Nat.add_sub_cancel, List.take_left]
      rw [htake]
    exact ⟨⟨pre⟩, (congrArg String.mk hpre).symm, by rw [htrim]⟩
  · intro hsuf
    have htrim : trimSuffix goldenFile ".golden" = goldenFile := by
      unfold trimSuffix
      rw [if_neg (by simp [hsuf])]
    rw [htrim]

/-- C3 witness: a matching read returns the empty string. -/
theorem compare_read_mode_witness :
    Compare (fun _ => "D") false ["r"] ⟨[("r/src/g.golden", "a\n")], []⟩
      "a\n" "g.golden" = .ok (⟨[("r/src/g.golden", "a\n")], []⟩, "") :=
  (compare_read_mode (fun _ => "D") ["r"] ⟨[("r/src/g.golden", "a\n")], []⟩
    "a\n" "g.golden" "r/src/g.golden" "a\n" (by decide) (by decide)).1.mpr rfl

/-- C4: in write mode, when resolution and the file write succeed, Compare
overwrites the resolved file with exactly `actual` and returns the empty
string. -/
theorem compare_write_mode (diffFn : UnifiedDiff → String) (gp : List String)
    (fs fs2 : FS) (actual goldenFile fullPath : String)
    (hres : getFullPathForWrite fs gp goldenFile = .ok fullPath)
    (hw : fs.writeFile fullPath actual = some fs2) :
    Compare diffFn true gp fs actual goldenFile = .ok (fs2, "") ∧
      fs2.readFile fullPath = some actual := by
  constructor
  · rw [Compare_true, hres]
    simp only []
    rw [hw]
  · exact readFile_afterWrite_self hw

/-- C4 witness: writing a fresh golden file under a single root. -/
theorem compare_write_mode_witness :
    Compare (fun _ => "D") true ["r"] ⟨[], ["r/src"]⟩ "new" "g.golden" =
        .ok (⟨[("r/src/g.golden", "new")], ["r/src"]⟩, "") ∧
      (⟨[("r/src/g.golden", "new")], ["r/src"]⟩ : FS).readFile
        "r/src/g.golden" = some "new" :=
  compare_write_mode (fun _ => "D") ["r"] ⟨[], ["r/src"]⟩
    ⟨[("r/src/g.golden", "new")], ["r/src"]⟩ "new" "g.golden"
    "r/src/g.golden" (by decide) (by decide)

/-- C5: round trip: after a successful write-mode Compare of value `v`, a
read-mode Compare of the same `v` on the resulting filesystem returns the
empty string. -/
theorem compare_write_then_read (diffFn : UnifiedDiff → String)
    (gp : List String) (fs fs2 : FS) (v path s : String)
    (h : Compare diffFn true gp fs v path = .ok (fs2, s)) :
    Compare diffFn false gp fs2 v path = .ok (fs2, "") := by
  rw [Compare_true] at h
  cases hres : getFullPathForWrite fs gp path with
  | error e =>
    rw [hres] at h
    exact Except.noConfusion h
  | ok fp =>
    rw [hres] at h
    simp only [] at h
    cases hw : fs.writeFile fp v with
    | none =>
      rw [hw] at h
      exact Except.noConfusion h
    | some fs2' =>
      rw [hw] at h
      simp only [] at h
      obtain ⟨hfs, -⟩ := Prod.mk.inj (Except.ok.inj h)
      subst hfs
      rw [Compare_false, getFullPathForRead_after_write hres hw]
      simp only []
      rw [readFile_afterWrite_self hw]
      simp only []
      rw [if_pos trivial]

/-- C5 witness: write then read of the same value matches. -/
theorem compare_write_then_read_witness :
    Compare (fun _ => "D") false ["r"]
        ⟨[("r/src/g.golden", "new")], ["r/src"]⟩ "new" "g.golden" =
      .ok (⟨[("r/src/g.golden", "new")], ["r/src"]⟩, "") :=
  compare_write_then_read (fun _ => "D") ["r"] ⟨[], ["r/src"]⟩
    ⟨[("r/src/g.golden", "new")], ["r/src"]⟩ "new" "g.golden" "" (by decide)

/-- C9 counterexample: with two roots whose candidate parent directories both
exist, write-mode Compare returns the empty outcome when the target already
exists under the first root, but aborts with an ambiguous-directory error
when the target does not exist — so the outcome of write mode is not
independent of whether the target file previously existed. -/
theorem compare_write_existence_dependence :
    Compare (fun _ => "") true ["p1", "p2"]
        ⟨[("p1/src/t/f.golden", "old")], ["p1/src/t", "p2/src/t"]⟩
        "new" "t/f.golden" =
      .ok (⟨[("p1/src/t/f.golden", "new")], ["p1/src/t", "p2/src/t"]⟩, "") ∧
    Compare (fun _ => "") true ["p1", "p2"]
        ⟨[], ["p1/src/t", "p2/src/t"]⟩ "new" "t/f.golden" =
      .error (.multipleSuitableDirs
        ["p1/src/t/f.golden", "p2/src/t/f.golden"]) ∧
    Compare (fun _ => "") true ["p1", "p2"]
        ⟨[("p1/src/t/f.golden", "old")], ["p1/src/t", "p2/src/t"]⟩
        "new" "t/f.golden" ≠
      Compare (fun _ => "") true ["p1", "p2"]
        ⟨[], ["p1/src/t", "p2/src/t"]⟩ "new" "t/f.golden" :=
  ⟨by decide, by decide, by decide⟩

/-- C9 (amended): whenever write-mode Compare returns, it returns the empty
string; it changes no directory and no file other than the resolved target,
which afterwards holds exactly `actual`; and it never reads the target's
prior contents — replacing the contents stored at the target before the call
still yields the empty-string outcome. -/
theorem compare_write_frame (diffFn : UnifiedDiff → String) (gp : List String)
    (fs fs2 : FS) (v path s : String)
    (h : Compare diffFn true gp fs v path = .ok (fs2, s)) :
    s = "" ∧ fs2.dirs = fs.dirs ∧
      ∃ fp, getFullPathForWrite fs gp path = .ok fp ∧
        fs2.readFile fp = some v ∧
        (∀ q, q ≠ fp → fs2.readFile q = fs.readFile q) ∧
        (∀ c, ∃ fs3, Compare diffFn true gp (fs.setContent fp c) v path =
          .ok (fs3, "")) := by
  rw [Compare_true] at h
  cases hres : getFullPathForWrite fs gp path with
  | error e =>
    rw [hres] at h
    exact Except.noConfusion h
  | ok fp =>
    rw [hres] at h
    simp only [] at h
    cases hw : fs.writeFile fp v with
    | none =>
      rw [hw] at h
      exact Except.noConfusion h
    | some fs2' =>
      rw [hw] at h
      simp only [] at h
      obtain ⟨hfs, hs⟩ := Prod.mk.inj (Except.ok.inj h)
      subst hfs
      refine ⟨hs.symm, (writeFile_some hw).2.1, fp, rfl,
        readFile_afterWrite_self hw, fun q hq => readFile_afterWrite_ne hw hq,
        ?_⟩
      intro c
      have hres' : getFullPathForWrite (fs.setContent fp c) gp path = .ok fp := by
        rw [getFullPathForWrite_statOk_congr (statOk_setContent fs fp c) gp path,
          hres]
      have hdir : (fs.setContent fp c).dirs.contains (dirOf fp) = true :=
        (writeFile_some hw).2.2
      refine ⟨⟨setKey (fs.setContent fp c).files fp v, (fs.setContent fp c).dirs⟩, ?_⟩
      rw [Compare_true, hres']
      simp only []
      rw [show (fs.setContent fp c).writeFile fp v =
        some ⟨setKey (fs.setContent fp c).files fp v, (fs.setContent fp c).dirs⟩
        from by unfold FS.writeFile; rw [if_pos hdir]]

/-- C9 witness: the amended frame property at a concrete write. -/
theorem compare_write_frame_witness :
    ("" : String) = "" ∧
      (⟨[("r/src/g.golden", "new")], ["r/src"]⟩ : FS).dirs =
        (⟨[], ["r/src"]⟩ : FS).dirs ∧
      ∃ fp, getFullPathForWrite ⟨[], ["r/src"]⟩ ["r"] "g.golden" = .ok fp ∧
        (⟨[("r/src/g.golden", "new")], ["r/src"]⟩ : FS).readFile fp =
          some "new" ∧
        (∀ q, q ≠ fp →
          (⟨[("r/src/g.golden", "new")], ["r/src"]⟩ : FS).readFile q =
            (⟨[], ["r/src"]⟩ : FS).readFile q) ∧
        (∀ c, ∃ fs3, Compare (fun _ => "D") true ["r"]
          ((⟨[], ["r/src"]⟩ : FS).setContent fp c) "new" "g.golden" =
            .ok (fs3, "")) :=
  compare_write_frame (fun _ => "D") ["r"] ⟨[], ["r/src"]⟩
    ⟨[("r/src/g.golden", "new")], ["r/src"]⟩ "new" "g.golden" "" (by decide)

example : getFullPathForRead ⟨[("r/src/a.txt", "x")], []⟩ ["r"] "a.txt" =
    .ok "r/src/a.txt" := by decide

example : getFullPathForWrite ⟨[], []⟩ ["r"] "a.txt" = .ok "r/src/a.txt" := by
  decide

example :
    getFullPathForWrite ⟨[("p2/src/t/f", "x"), ("p1/src/t/f", "y")], []⟩
      ["p1", "p2"] "t/f" =
    .error (.multipleFiles "t/f" ["p1/src/t/f", "p2/src/t/f"]) := by decide

example :
    getFullPathForWrite ⟨[], ["p1/src/t", "p2/src/t"]⟩ ["p1", "p2"] "t/f" =
    .error (.multipleSuitableDirs ["p1/src/t/f", "p2/src/t/f"]) := by decide

example :
    getFullPathForWrite ⟨[], []⟩ ["p1", "p2"] "t/f" =
    .error (.noSuchDirs ["p1/src/t", "p2/src/t"]) := by decide

example :
    Compare (fun _ => "D") false ["r"] ⟨[("r/src/g.golden", "a\n")], []⟩
      "a\n" "g.golden" = .ok (⟨[("r/src/g.golden", "a\n")], []⟩, "") := by
  decide

example :
    Compare (fun _ => "D") false ["r"] ⟨[("r/src/g.golden", "a\n")], []⟩
      "b\n" "g.golden" =
    .ok (⟨[("r/src/g.golden", "a\n")], []⟩, diffMessage "D") := by decide

end Golden
